import Mathlib

/-!
Verification of the Blightmud scripting/event core against its design spec.

Each Rust function under scrutiny is shallowly embedded as a Lean definition;
machine-integer behaviour (i32/u32/usize wrapping and casts) is made explicit
with `Int`/`Nat` arithmetic modulo the relevant power of two.  Fallible or
panicking code is embedded with `Option`/`Except`.
-/

namespace Blightmud

/-! ### Events (src/event.rs, the variants the covered code sends) -/

/-- Bus events sent by the covered code paths. -/
inductive Event where
  | setPromptMask (mask : List (Int × String))
  | info (msg : String)
  | setPromptInputCursor (offset : Nat)
  deriving DecidableEq, Repr

/-! ### Prompt mask model (src/model/prompt_mask.rs)

A `PromptMask` is a `BTreeMap<i32, String>`; iterating it yields entries in
ascending key order, so the map is embedded as its ascending-key entry list
`List (Int × List Char)` (a Rust `String` value is its list of chars). -/

/-- Rust `String::len()` of a Rust string: the number of UTF-8 bytes. -/
def byteLen (s : List Char) : Nat := (s.map Char.utf8Size).sum

/-- Two's-complement wrapping of an integer into the i32 range. -/
def wrapI32 (n : Int) : Int := (n + 2 ^ 31) % 2 ^ 32 - 2 ^ 31

/-- Rust `as usize` cast of an i32 value: sign-extension, i.e. reduction mod 2^64. -/
def i32AsUsize (n : Int) : Nat := (n % 2 ^ 64).toNat

/-- Rust `Vec::splice(i..i, v)`: insert `v` at index `i`.  Rust panics when `i`
is past the end of the vector; the panic is modelled by `none`. -/
def spliceInsert (l : List Char) (i : Nat) (v : List Char) : Option (List Char) :=
  if i ≤ l.length then some (l.take i ++ v ++ l.drop i) else none

/-- The loop of `PromptMask::mask_buffer`: walk the entries in ascending key
order with a running byte `offset`, splicing each mask value in at
`offset + (idx - 1) as usize` and then adding the value's byte length to
`offset`.  A splice out of bounds is a panic (`none`). -/
def mask_buffer_go : List (Int × List Char) → List Char → Nat → Option (List Char)
  | [], buf, _ => some buf
  | (idx, mask) :: rest, buf, offset =>
    match spliceInsert buf (offset + i32AsUsize (wrapI32 (idx - 1))) mask with
    | some buf2 => mask_buffer_go rest buf2 (offset + byteLen mask)
    | none => none

/-- Rust `PromptMask::mask_buffer(buf)` (src/model/prompt_mask.rs, lines 21-40). -/
def mask_buffer (mask : List (Int × List Char)) (buf : List Char) : Option (List Char) :=
  mask_buffer_go mask buf 0

/-- The bounds condition the splice loop checks step by step: every adjusted
index stays within the current (grown) buffer length. -/
def mask_in_bounds_go : List (Int × List Char) → Nat → Nat → Bool
  | [], _, _ => true
  | (idx, mask) :: rest, len, offset =>
    decide (offset + i32AsUsize (wrapI32 (idx - 1)) ≤ len) &&
      mask_in_bounds_go rest (len + mask.length) (offset + byteLen mask)

/-- Every adjusted index of `mask` is within bounds of the running buffer. -/
def mask_in_bounds (mask : List (Int × List Char)) (buf : List Char) : Bool :=
  mask_in_bounds_go mask buf.length 0

/-! ### PromptMask.set (src/lua/prompt_mask.rs, lines 15-31) -/

/-- Observable outcome of one `prompt_mask.set` call: the Lua return value,
the events sent on the bus, and the registry's prompt content afterwards. -/
structure PromptMaskSetResult where
  ret : Bool
  events : List Event
  prompt_content : String
  deriving DecidableEq, Repr

/-- Rust `PromptMask::set(data, mask)`: read the registry's `PROMPT_CONTENT`;
when it differs from `data`, return `false` without sending anything;
otherwise send one `SetPromptMask` event and return `true`.  The registry
content is never written. -/
def prompt_mask_set (prompt_content data : String) (mask : List (Int × String)) :
    PromptMaskSetResult :=
  if prompt_content ≠ data then
    { ret := false, events := [], prompt_content := prompt_content }
  else
    { ret := true, events := [Event.setPromptMask mask], prompt_content := prompt_content }

/-! ### Prompt.set_cursor (src/lua/prompt.rs, lines 24-33) -/

/-- Observable outcome of one `prompt.set_cursor` call: the registry's stored
cursor position, the events sent, and whether the u32 subtraction `offset - 1`
underflowed (a panic in debug builds, a wrap to `2^32 - 1` otherwise). -/
structure SetCursorResult where
  stored_cursor_pos : Nat
  events : List Event
  underflow : Bool
  deriving DecidableEq, Repr

/-- Rust `prompt.set_cursor(offset)` for a u32 argument `offset < 2^32`: store
`offset` in the registry as `PROMPT_CURSOR_POS`, then compute `offset - 1`
in unsigned 32-bit arithmetic and emit `SetPromptInputCursor` with it. -/
def set_cursor (offset : Nat) : SetCursorResult :=
  { stored_cursor_pos := offset
  , events := [Event.setPromptInputCursor ((offset + (2 ^ 32 - 1)) % 2 ^ 32)]
  , underflow := decide (offset = 0) }

/-! ### open_tcp_stream (src/net/util.rs, lines 9-35)

The function is embedded with its environment interactions as parameters:
`resolved` is the outcome of `to_socket_addrs()` (an error, or the resolved
address list), `socket_new` the per-address outcome of `Socket::new`, and
`connect_ok` / `keepalive_ok` the outcomes of `connect_timeout` and
`set_tcp_keepalive`, which the source discards with `.ok()`. -/

/-- The closure passed to `find_map`: skip the address when `Socket::new`
fails; otherwise attempt the connect and the keep-alive configuration,
discard both results (`.ok()`), and yield the socket. -/
def socket_attempt {α σ : Type} (socket_new : α → Option σ)
    (connect_ok keepalive_ok : α → Bool) (addr : α) : Option σ :=
  match socket_new addr with
  | none => none
  | some sock =>
    let _ := connect_ok addr
    let _ := keepalive_ok addr
    some sock

/-- Rust `open_tcp_stream(host, port)`: fail when resolution fails; otherwise
`find_map` over the addresses with `socket_attempt` and yield the first
created socket, or the fixed error when none was created. -/
def open_tcp_stream {α σ : Type} (resolved : Except String (List α))
    (socket_new : α → Option σ) (connect_ok : α → Bool) (keepalive_ok : α → Bool) :
    Except String σ :=
  match resolved with
  | .error e => .error e
  | .ok addrs =>
    match addrs.findSome? (socket_attempt socket_new connect_ok keepalive_ok) with
    | some stream => .ok stream
    | none => .error "Invalid connection params"

/-! ### Version check (src/net/check_version.rs) -/

/-- Release URL prefix constant from the source. -/
def BLIGHTMUD_RELEASE_URL_PREFIX : String :=
  "https://github.com/Blightmud/Blightmud/releases/tag/"

/-- The first `Info` message `run` sends when a newer version exists. -/
def notice_msg (current latest : String) : String :=
  "There is a newer version of Blightmud available. (current: " ++ current ++
    ", new: " ++ latest ++ ")"

/-- The second `Info` message: the release URL. -/
def url_msg (latest : String) : String :=
  "Visit " ++ (BLIGHTMUD_RELEASE_URL_PREFIX ++ latest) ++ " to upgrade to latest version"

/-- Rust `Fetcher::fetch`: on any error while fetching, the tag list is empty;
otherwise sort the fetched tags in descending lexicographic order
(`sort_by(|a, b| b.cmp(a))`) so the newest is first. -/
def fetch_tags (raw : Option (List String)) : List String :=
  match raw with
  | none => []
  | some tags => tags.insertionSort (fun a b => b ≤ a)

/-- Rust `run(writer, current, fetcher)` applied to an already-fetched tag list:
when the first tag compares greater than the running version, send the notice
and the release URL as two `Info` events; otherwise send nothing. -/
def run_check (current : String) (tags : List String) : List Event :=
  match tags.head? with
  | some latest =>
    if current < latest then
      [Event.info (notice_msg current latest), Event.info (url_msg latest)]
    else []
  | none => []

/-! ### Line model and listener-chain traversal (src/lua/lua_script.rs, lines 313-352)

`model::Line` itself is not under src/ (only its users are); the small part
the chain touches is modelled from the spec (§3 Line, §4.1 write-back). -/

/-- The Line flag set of §3. -/
structure Flags where
  gag : Bool
  matched : Bool
  bypass_script : Bool
  prompt : Bool
  deriving DecidableEq, Repr

/-- Modelled from the spec: `model::Line` (not under src/) — an ordered
sequence of display characters plus the flag set of §3. -/
structure Line where
  content : String
  flags : Flags
  deriving DecidableEq, Repr

/-- The script-side view (`lua::line::Line`): the wrapped Line plus an
optional replacement string. -/
structure LuaLine where
  inner : Line
  replacement : Option String
  deriving DecidableEq, Repr

/-- Rust `LuaLine::from(line.clone())`: wrap the line, no replacement yet. -/
def LuaLine.ofLine (l : Line) : LuaLine := { inner := l, replacement := none }

/-- A registered listener: receives the current view and returns a possibly
modified view, or raises a script error. -/
def Callback : Type := LuaLine → Except String LuaLine

/-- Modelled from the spec: after a successful traversal the host calls
`line.replace_with(&lline.inner)` (write the traversed view's content and
flags back, §4.1) and, when the final view carries a replacement,
`line.set_content(replacement)` overrides the displayed content. -/
def write_back (ll : LuaLine) : Line :=
  match ll.replacement with
  | some r => { ll.inner with content := r }
  | none => ll.inner

/-- The traversal loop shared by `on_mud_output` and `on_mud_input`: each
callback receives the current view and yields the next one; a raised error
aborts the walk at that callback. -/
def run_chain : List Callback → LuaLine → Except String LuaLine
  | [], ll => .ok ll
  | cb :: rest, ll =>
    match cb ll with
    | .ok ll2 => run_chain rest ll2
    | .error e => .error e

/-- Rust `LuaScript::on_mud_output(line)`: skip everything when `bypass_script`
is set; otherwise traverse the output listeners and write the result back;
on a callback error the line is left untouched. -/
def on_mud_output (cbs : List Callback) (line : Line) : Line :=
  if line.flags.bypass_script then line
  else
    match run_chain cbs (LuaLine.ofLine line) with
    | .ok ll => write_back ll
    | .error _ => line

/-- Rust `LuaScript::on_mud_input(line)`: as `on_mud_output` with the input
listeners, except that a callback error additionally marks the line
`matched` so the main loop does not forward it to the server. -/
def on_mud_input (cbs : List Callback) (line : Line) : Line :=
  if line.flags.bypass_script then line
  else
    match run_chain cbs (LuaLine.ofLine line) with
    | .ok ll => write_back ll
    | .error _ => { line with flags := { line.flags with matched := true } }

/-! ### load_script (src/lua/lua_script.rs, lines 413-429) -/

/-- Modelled from the spec: `expand_tilde` (crate::tools::util, not under
src/) expands a leading `~` of the path to the user's home directory. -/
def expand_tilde (home path : String) : String :=
  match path.data with
  | '~' :: rest => home ++ String.mk rest
  | _ => path

/-- Rust `file_path.rsplit_once('/').unwrap_or(("", "")).0`: everything before
the last slash, or the empty string when the path has no slash. -/
def dir_of (s : String) : String :=
  match s.data.reverse.dropWhile (· != '/') with
  | [] => ""
  | _ :: rest => String.mk rest.reverse

/-- Observable outcome of one `load_script` call: the module search path
while the chunk executed (none when the file could not be read), the search
path after the call, and the call's result. -/
structure LoadScriptResult where
  path_during_exec : Option String
  path_after : String
  result : Except String Unit
  deriving Repr

/-- Rust `LuaScript::load_script(path)`: expand a leading tilde, open and read
the file (failure returns the error with nothing touched), compute the
script's directory, prepend `<dir>/?.lua;` to `package.path`, execute the
chunk, and restore the saved `package.path` before returning the chunk's
result — the restore runs on success and on error alike. -/
def load_script (package_path path home : String) (file : Option String)
    (outcome : Except String Unit) : LoadScriptResult :=
  let file_path := expand_tilde home path
  match file with
  | none =>
    { path_during_exec := none
    , path_after := package_path
    , result := Except.error "could not open file" }
  | some _content =>
    let dir := dir_of file_path
    let ppath := package_path
    { path_during_exec := some (dir ++ "/?.lua;" ++ ppath)
    , path_after := ppath
    , result := outcome }

/-! ### Tab completion (src/lua/lua_script.rs, lines 534-560)

`model::Completions` is not under src/ (only its callers and tests are);
it is modelled from the spec (§3).  Rust string comparison is
byte-lexicographic, which on UTF-8 agrees with lexicographic comparison
of the character sequences, embedded here as a boolean comparator. -/

/-- Lexicographic comparison of character sequences: the Rust `String`
ordering. -/
def chars_le : List Char → List Char → Bool
  | [], _ => true
  | _ :: _, [] => false
  | a :: as, b :: bs => if a < b then true else if b < a then false else chars_le as bs

/-- Rust `String` ordering on the embedded strings. -/
def str_le (a b : String) : Bool := chars_le a.data b.data

/-- Insertion into a list sorted by `le`. -/
def insert_by {α : Type} (le : α → α → Bool) (x : α) : List α → List α
  | [] => [x]
  | y :: ys =>
    match le x y with
    | true => x :: y :: ys
    | false => y :: insert_by le x ys

/-- Sorting by an ordering function (embeds Rust `slice::sort`, which sorts
ascending). -/
def sort_by {α : Type} (le : α → α → Bool) (l : List α) : List α :=
  l.foldr (insert_by le) []

/-- Collapse adjacent duplicates of a sorted list. -/
def dedup_sorted : List String → List String
  | [] => []
  | [x] => [x]
  | x :: y :: rest =>
    if x = y then dedup_sorted (y :: rest) else x :: dedup_sorted (y :: rest)

/-- A Lua value as `tab_complete` distinguishes them: a table together with
the outcome of its `Vec::<String>` conversion, a boolean, or anything else
(nil, number, string, …). -/
inductive LVal where
  | table (conv : Option (List String))
  | bool (b : Bool)
  | other
  deriving DecidableEq, Repr

/-- Modelled from the spec: `model::Completions` (§3) — a sorted,
deduplicated entry list plus the `locked` flag. -/
structure Completions where
  entries : List String
  locked : Bool
  deriving DecidableEq, Repr

/-- Rust `Completions::default()`: no entries, not locked. -/
def Completions.default : Completions := { entries := [], locked := false }

/-- Modelled from the spec: `Completions::add_all` merges the new strings
into the sorted, deduplicated entry list (§3, §8 property 6). -/
def Completions.add_all (c : Completions) (xs : List String) : Completions :=
  { c with entries := dedup_sorted (sort_by str_le (c.entries ++ xs)) }

/-- Rust `Completions::lock(b)`: set the locked flag. -/
def Completions.lock (c : Completions) (b : Bool) : Completions := { c with locked := b }

/-- First returned value of a callback: a table whose string conversion
succeeds has its strings sorted (`comps.sort()`) and accumulated; anything
else contributes no entries. -/
def tab_entries_step (result : List LVal) (acc : Completions) : Completions :=
  match result.head? with
  | some (LVal.table (some comps)) => acc.add_all (sort_by str_le comps)
  | _ => acc

/-- Second returned value of a callback: a boolean overwrites the lock. -/
def tab_lock_step (result : List LVal) (acc : Completions) : Completions :=
  match result[1]? with
  | some (LVal.bool b) => acc.lock b
  | _ => acc

/-- One callback's returned `MultiValue`: an empty result is skipped
entirely; otherwise the first value may contribute entries and the second
may overwrite the lock. -/
def tab_step (result : List LVal) (acc : Completions) : Completions :=
  if result.isEmpty then acc else tab_lock_step result (tab_entries_step result acc)

/-- A completion callback: receives the input and returns a multi-value, or
raises a script error. -/
def CompletionCallback : Type := String → Except String (List LVal)

/-- The callback walk of `tab_complete`: insertion order, accumulating into
`acc`; a raised error aborts the whole walk. -/
def tab_complete_go :
    List CompletionCallback → String → Completions → Except String Completions
  | [], _, acc => .ok acc
  | cb :: rest, input, acc =>
    match cb input with
    | .ok result => tab_complete_go rest input (tab_step result acc)
    | .error e => .error e

/-- Rust `LuaScript::tab_complete(input)`: walk the registered completion
callbacks; on any script error return the default `Completions`
(`unwrap_or_default`). -/
def tab_complete (cbs : List CompletionCallback) (input : String) : Completions :=
  match tab_complete_go cbs input Completions.default with
  | .ok c => c
  | .error _ => Completions.default

/-- The lock a single callback result carries: its second value when that is
a boolean and the result is non-empty. -/
def result_lock (result : List LVal) : Option Bool :=
  if result.isEmpty then none
  else
    match result[1]? with
    | some (LVal.bool b) => some b
    | _ => none

/-- The lock values produced, in walk order, by the callbacks that returned
a boolean lock. -/
def lock_list (cbs : List CompletionCallback) (input : String) : List Bool :=
  cbs.filterMap (fun cb =>
    match cb input with
    | .ok r => result_lock r
    | .error _ => none)

/-- A value that is a table whose string conversion succeeds. -/
def is_string_table : LVal → Bool
  | LVal.table (some _) => true
  | _ => false

/-! ### Counted triggers (trigger module)

The trigger engine lives in an embedded script module
(resources/lua/trigger.lua) that is not under src/; only its test
(src/lua/lua_script.rs, `test_lua_counted_trigger`) is.  The counted-trigger
semantics is therefore modelled from the spec (§4.2, §8 property 2). -/

/-- Modelled from the spec: a trigger added with `count = N` has N remaining
matches.  Each line matching its pattern while the trigger is present is
marked `matched` and decrements the remaining count regardless of the
callback's outcome; after the Nth match the trigger is removed, so later
lines are not matched.  A line is `(matches_pattern, callback_ok)`; the
output is each line's final `matched` flag. -/
def counted_trigger_run : Nat → List (Bool × Bool) → List Bool
  | _, [] => []
  | 0, _ :: rest => false :: counted_trigger_run 0 rest
  | Nat.succ k, (m, _cbok) :: rest =>
    match m with
    | true => true :: counted_trigger_run k rest
    | false => false :: counted_trigger_run (Nat.succ k) rest

end Blightmud

namespace Blightmud

/-! ## Theorems for the prompt-mask claims -/

/-- Claim C1: `PromptMask.set(data, mask)` returns `true` and sends exactly one
`SetPromptMask` event carrying the mask when `data` equals the current prompt
content, and returns `false` sending no event when it differs; the registry
prompt content is unchanged in both cases. -/
theorem prompt_mask_set_spec (content data : String) (mask : List (Int × String)) :
    (data = content →
      prompt_mask_set content data mask =
        { ret := true, events := [Event.setPromptMask mask], prompt_content := content }) ∧
    (data ≠ content →
      prompt_mask_set content data mask =
        { ret := false, events := [], prompt_content := content }) := by
  constructor
  · intro h
    subst h
    simp [prompt_mask_set]
  · intro h
    have h2 : content ≠ data := fun hc => h hc.symm
    simp [prompt_mask_set, h2]

/-- Witness for C1 at concrete inputs: a matching `data` succeeds with one
event, a stale `data` fails with none. -/
theorem prompt_mask_set_spec_witness :
    prompt_mask_set "HP 10>" "HP 10>" [(1, "x")] =
      { ret := true, events := [Event.setPromptMask [(1, "x")]], prompt_content := "HP 10>" } ∧
    prompt_mask_set "HP 10>" "stale" [] =
      { ret := false, events := [], prompt_content := "HP 10>" } :=
  ⟨(prompt_mask_set_spec "HP 10>" "HP 10>" [(1, "x")]).1 rfl,
   (prompt_mask_set_spec "HP 10>" "stale" []).2 (by decide)⟩

/-- Claim C2: `mask_buffer` iterates mask entries in ascending key order with a
running offset starting at 0, inserting each entry's characters at position
`offset + (idx - 1)` and then adding the entry's byte length to the offset;
in particular `"ABCDE"` masked with `{3: "xx", 5: "yy"}` yields `"ABxxCDyyE"`. -/
theorem mask_buffer_spec :
    mask_buffer [(3, "xx".data), (5, "yy".data)] "ABCDE".data = some "ABxxCDyyE".data ∧
    ∀ (idx : Int) (v : List Char) (rest : List (Int × List Char)) (buf : List Char)
      (offset : Nat), 1 ≤ idx → idx ≤ 2 ^ 31 →
      offset + (idx - 1).toNat ≤ buf.length →
      mask_buffer_go ((idx, v) :: rest) buf offset =
        mask_buffer_go rest
          (buf.take (offset + (idx - 1).toNat) ++ v ++ buf.drop (offset + (idx - 1).toNat))
          (offset + byteLen v) := by
  constructor
  · decide
  · intro idx v rest buf offset h1 h2 hb
    have hcast : i32AsUsize (wrapI32 (idx - 1)) = (idx - 1).toNat := by
      unfold wrapI32 i32AsUsize
      omega
    simp only [mask_buffer_go, spliceInsert, hcast, if_pos hb]

/-- Witness for C2's general step at a concrete input. -/
theorem mask_buffer_spec_witness :
    mask_buffer_go [(2, "z".data)] "abc".data 0 =
      mask_buffer_go [] ("abc".data.take 1 ++ "z".data ++ "abc".data.drop 1)
        (0 + byteLen "z".data) := by
  have h := mask_buffer_spec.2 2 "z".data [] "abc".data 0 (by decide) (by decide) (by decide)
  simpa using h

/-- Growing-length invariant: the splice loop succeeds exactly when every
adjusted index is in bounds of the running buffer. -/
theorem mask_buffer_go_isSome (entries : List (Int × List Char)) :
    ∀ (buf : List Char) (offset : Nat),
      (mask_buffer_go entries buf offset).isSome = mask_in_bounds_go entries buf.length offset := by
  induction entries with
  | nil => intro buf offset; simp [mask_buffer_go, mask_in_bounds_go]
  | cons hd tl ih =>
    intro buf offset
    obtain ⟨idx, mask⟩ := hd
    by_cases h : offset + i32AsUsize (wrapI32 (idx - 1)) ≤ buf.length
    · have hsplice : spliceInsert buf (offset + i32AsUsize (wrapI32 (idx - 1))) mask =
          some (buf.take (offset + i32AsUsize (wrapI32 (idx - 1))) ++ mask ++
            buf.drop (offset + i32AsUsize (wrapI32 (idx - 1)))) := by
        simp [spliceInsert, h]
      have hlen : (buf.take (offset + i32AsUsize (wrapI32 (idx - 1))) ++ mask ++
          buf.drop (offset + i32AsUsize (wrapI32 (idx - 1)))).length =
          buf.length + mask.length := by
        simp [List.length_append, List.length_take, List.length_drop]
        omega
      simp only [mask_buffer_go, hsplice, mask_in_bounds_go, h, decide_True, Bool.true_and]
      rw [ih, hlen]
    · have hsplice : spliceInsert buf (offset + i32AsUsize (wrapI32 (idx - 1))) mask = none := by
        simp [spliceInsert, h]
      simp [mask_buffer_go, hsplice, mask_in_bounds_go, h]

/-- Claim C9: `mask_buffer` is partial — a mask entry whose adjusted index
exceeds the buffer length panics (e.g. key 7 on `"ABCDE"`), and a key `0`
wraps `(idx - 1) as usize` to a huge index and also panics; the loop succeeds
exactly when every adjusted index is within the running buffer bounds. -/
theorem mask_buffer_bounds_spec :
    mask_buffer [(7, "x".data)] "ABCDE".data = none ∧
    mask_buffer [(0, "z".data)] "ABCDE".data = none ∧
    ∀ (mask : List (Int × List Char)) (buf : List Char),
      (mask_buffer mask buf).isSome = mask_in_bounds mask buf := by
  refine ⟨by decide, by decide, ?_⟩
  intro mask buf
  unfold mask_buffer mask_in_bounds
  exact mask_buffer_go_isSome mask buf 0

/-! ## Theorems for set_cursor -/

/-- Claim C10: `prompt.set_cursor(n)` stores `n` as the cursor position and
emits the event with `n - 1` for every `n ≥ 1` (the 1-indexed to 0-indexed
conversion), while `n = 0` underflows the u32 subtraction, wrapping the
emitted value to `2^32 - 1` (and panicking in debug builds). -/
theorem set_cursor_spec :
    (∀ n : Nat, 1 ≤ n → n < 2 ^ 32 →
      set_cursor n =
        { stored_cursor_pos := n
        , events := [Event.setPromptInputCursor (n - 1)]
        , underflow := false }) ∧
    set_cursor 0 =
      { stored_cursor_pos := 0
      , events := [Event.setPromptInputCursor (2 ^ 32 - 1)]
      , underflow := true } := by
  constructor
  · intro n h1 h2
    have hz : decide (n = 0) = false := by
      simp only [decide_eq_false_iff_not]
      omega
    simp [set_cursor, hz]
    omega
  · decide

/-- Witness for C10 at `n = 5`: the event carries `4` and nothing underflows. -/
theorem set_cursor_spec_witness :
    set_cursor 5 =
      { stored_cursor_pos := 5
      , events := [Event.setPromptInputCursor 4]
      , underflow := false } :=
  set_cursor_spec.1 5 (by decide) (by decide)

/-! ## Theorems for open_tcp_stream -/

/-- The per-address closure of `find_map` is `socket_new` itself: the connect
and keep-alive results are discarded and do not affect the yielded socket. -/
theorem socket_attempt_eq {α σ : Type} (socket_new : α → Option σ)
    (connect_ok keepalive_ok : α → Bool) :
    socket_attempt socket_new connect_ok keepalive_ok = socket_new := by
  funext addr
  unfold socket_attempt
  cases socket_new addr <;> rfl

/-- Counterexample to claim C8 as stated: a host resolving to one address on
which socket creation fails makes `open_tcp_stream` return the
`Invalid connection params` error, not `Ok`. -/
theorem open_tcp_stream_cex :
    open_tcp_stream (σ := Unit) (Except.ok [(0 : Nat)]) (fun _ => none)
      (fun _ => true) (fun _ => true) = Except.error "Invalid connection params" := rfl

/-- Claim C8 (amended): `open_tcp_stream` errors when resolution fails or when
socket creation fails for every resolved address; when socket creation
succeeds for some address it returns `Ok` with the socket of the first such
address, and the result never depends on the outcomes of the connect attempt
or the keep-alive configuration, which are discarded. -/
theorem open_tcp_stream_spec {α σ : Type} (e : String) (addrs : List α)
    (socket_new : α → Option σ) (c k c2 k2 : α → Bool)
    (resolved : Except String (List α)) (s : σ) :
    open_tcp_stream (Except.error e) socket_new c k = Except.error e ∧
    (addrs.findSome? socket_new = none →
      open_tcp_stream (Except.ok addrs) socket_new c k =
        Except.error "Invalid connection params") ∧
    (addrs.findSome? socket_new = some s →
      open_tcp_stream (Except.ok addrs) socket_new c k = Except.ok s) ∧
    open_tcp_stream resolved socket_new c k = open_tcp_stream resolved socket_new c2 k2 := by
  refine ⟨rfl, ?_, ?_, ?_⟩
  · intro h
    simp [open_tcp_stream, socket_attempt_eq, h]
  · intro h
    simp [open_tcp_stream, socket_attempt_eq, h]
  · cases resolved with
    | error e2 => rfl
    | ok addrs2 => simp [open_tcp_stream, socket_attempt_eq]

/-- Witness for the amended C8 at a concrete input: one address whose socket
creation succeeds yields `Ok` with that socket. -/
theorem open_tcp_stream_spec_witness :
    open_tcp_stream (σ := Unit) (Except.ok [(7 : Nat)]) (fun _ => some ())
      (fun _ => true) (fun _ => true) = Except.ok () :=
  (open_tcp_stream_spec "" [(7 : Nat)] (fun _ => some ()) (fun _ => true) (fun _ => true)
    (fun _ => true) (fun _ => true) (Except.ok [(7 : Nat)]) ()).2.2.1 rfl

/-! ## Theorems for the version check -/

instance : IsTotal String (fun a b => b ≤ a) := ⟨fun a b => le_total b a⟩

instance : IsTrans String (fun a b => b ≤ a) := ⟨fun _ _ _ h1 h2 => le_trans h2 h1⟩

/-- Claim C6: the version-check worker yields an empty tag list on any fetch
error, sorts fetched tags in descending lexicographic order (a permutation of
the input, pairwise `≥`), and sends exactly the two `Info` events — the
notice naming both versions then the release URL — precisely when the first
tag of the list compares greater than the running version. -/
theorem check_version_run_spec (raw : List String) (current latest : String)
    (rest : List String) :
    fetch_tags none = [] ∧
    List.Pairwise (fun a b => b ≤ a) (fetch_tags (some raw)) ∧
    (fetch_tags (some raw)).Perm raw ∧
    run_check current [] = [] ∧
    run_check current (latest :: rest) =
      (if current < latest then
        [Event.info (notice_msg current latest), Event.info (url_msg latest)]
      else []) := by
  refine ⟨rfl, ?_, ?_, rfl, rfl⟩
  · exact List.sorted_insertionSort (fun a b => b ≤ a) raw
  · exact List.perm_insertionSort (fun a b => b ≤ a) raw

/-! ## Theorems for the listener chains -/

/-- A chain over callbacks that never raise completes. -/
theorem run_chain_total (cbs : List Callback) :
    ∀ ll : LuaLine, (∀ cb ∈ cbs, ∀ x, (cb x).isOk = true) →
      (run_chain cbs ll).isOk = true := by
  induction cbs with
  | nil => intro ll _; rfl
  | cons cb rest ih =>
    intro ll h
    have hcb : (cb ll).isOk = true := h cb (List.mem_cons_self cb rest) ll
    cases hc : cb ll with
    | error e => rw [hc] at hcb; simp [Except.isOk, Except.toBool] at hcb
    | ok ll2 =>
      have : run_chain (cb :: rest) ll = run_chain rest ll2 := by
        simp [run_chain, hc]
      rw [this]
      exact ih ll2 (fun c hcmem x => h c (List.mem_cons_of_mem cb hcmem) x)

/-- Claim C3: with `bypass_script` clear, `on_mud_input` and `on_mud_output`
traverse the full chain unless a callback raises, in which case traversal
aborts and only the input path marks the line `matched`; with
`bypass_script` set neither operation invokes a callback or changes the
line. -/
theorem listener_chain_error_policy (cbs : List Callback) (line : Line) :
    (line.flags.bypass_script = true →
      on_mud_input cbs line = line ∧ on_mud_output cbs line = line) ∧
    (line.flags.bypass_script = false →
      (∀ e, run_chain cbs (LuaLine.ofLine line) = Except.error e →
        on_mud_input cbs line = { line with flags := { line.flags with matched := true } } ∧
        on_mud_output cbs line = line) ∧
      (∀ ll, run_chain cbs (LuaLine.ofLine line) = Except.ok ll →
        on_mud_input cbs line = write_back ll ∧
        on_mud_output cbs line = write_back ll)) ∧
    (∀ ll : LuaLine, (∀ cb ∈ cbs, ∀ x, (cb x).isOk = true) →
      (run_chain cbs ll).isOk = true) := by
  refine ⟨?_, ?_, run_chain_total cbs⟩
  · intro hb
    constructor <;> simp [on_mud_input, on_mud_output, hb]
  · intro hb
    constructor
    · intro e he
      constructor <;> simp [on_mud_input, on_mud_output, hb, he]
    · intro ll hok
      constructor <;> simp [on_mud_input, on_mud_output, hb, hok]

/-- Witness for C3 at a concrete input: a single raising callback marks the
input line `matched` and leaves the output line untouched. -/
theorem listener_chain_error_policy_witness :
    on_mud_input [fun _ => Except.error "boom"]
        { content := "north", flags := ⟨false, false, false, false⟩ } =
      { content := "north", flags := ⟨false, true, false, false⟩ } ∧
    on_mud_output [fun _ => Except.error "boom"]
        { content := "north", flags := ⟨false, false, false, false⟩ } =
      { content := "north", flags := ⟨false, false, false, false⟩ } :=
  (listener_chain_error_policy [fun _ => Except.error "boom"]
    { content := "north", flags := ⟨false, false, false, false⟩ }).2.1 rfl |>.1 "boom" rfl

/-! ## Theorems for load_script -/

/-- Claim C7: `load_script` expands a leading tilde, runs the chunk with
`<dir>/?.lua` prepended to the module search path, and restores the prior
search path after every call — whether the chunk succeeded or raised, and
also when the file could not be read at all. -/
theorem load_script_spec (package_path path home content : String)
    (cs : List Char) (file : Option String) (outcome : Except String Unit) :
    (load_script package_path path home file outcome).path_after = package_path ∧
    (load_script package_path path home (some content) outcome).path_during_exec =
      some (dir_of (expand_tilde home path) ++ "/?.lua;" ++ package_path) ∧
    expand_tilde home (String.mk ('~' :: cs)) = home ++ String.mk cs ∧
    (load_script package_path path home (some content) outcome).result = outcome := by
  refine ⟨?_, rfl, rfl, rfl⟩
  cases file <;> rfl

/-! ## Theorems for tab_complete -/

theorem insert_by_perm {α : Type} (le : α → α → Bool) (x : α) (l : List α) :
    (insert_by le x l).Perm (x :: l) := by
  induction l with
  | nil => exact List.Perm.refl _
  | cons y ys ih =>
    cases h : le x y with
    | true => simp [insert_by, h]
    | false =>
      simp only [insert_by, h]
      exact (ih.cons y).trans (List.Perm.swap x y ys)

theorem mem_insert_by {α : Type} (le : α → α → Bool) (x z : α) (l : List α) :
    z ∈ insert_by le x l ↔ z = x ∨ z ∈ l := by
  rw [(insert_by_perm le x l).mem_iff, List.mem_cons]

theorem insert_by_pairwise {α : Type} (le : α → α → Bool)
    (htot : ∀ a b, le a b = true ∨ le b a = true)
    (htrans : ∀ a b c, le a b = true → le b c = true → le a c = true)
    (x : α) (l : List α) (hl : l.Pairwise (fun a b => le a b = true)) :
    (insert_by le x l).Pairwise (fun a b => le a b = true) := by
  induction l with
  | nil => simp [insert_by]
  | cons y ys ih =>
    rw [List.pairwise_cons] at hl
    obtain ⟨hy, hys⟩ := hl
    cases h : le x y with
    | true =>
      simp only [insert_by, h]
      rw [List.pairwise_cons]
      refine ⟨?_, List.pairwise_cons.mpr ⟨hy, hys⟩⟩
      intro z hz
      rcases List.mem_cons.mp hz with rfl | hzys
      · exact h
      · exact htrans x y z h (hy z hzys)
    | false =>
      have hyx : le y x = true := (htot x y).resolve_left (by simp [h])
      simp only [insert_by, h]
      rw [List.pairwise_cons]
      refine ⟨?_, ih hys⟩
      intro z hz
      rcases (mem_insert_by le x z ys).mp hz with rfl | hzys
      · exact hyx
      · exact hy z hzys

theorem sort_by_perm {α : Type} (le : α → α → Bool) (l : List α) :
    (sort_by le l).Perm l := by
  induction l with
  | nil => exact List.Perm.refl _
  | cons x xs ih =>
    have hstep : sort_by le (x :: xs) = insert_by le x (sort_by le xs) := rfl
    rw [hstep]
    exact (insert_by_perm le x (sort_by le xs)).trans (ih.cons x)

theorem sort_by_pairwise {α : Type} (le : α → α → Bool)
    (htot : ∀ a b, le a b = true ∨ le b a = true)
    (htrans : ∀ a b c, le a b = true → le b c = true → le a c = true)
    (l : List α) : (sort_by le l).Pairwise (fun a b => le a b = true) := by
  induction l with
  | nil => simp [sort_by]
  | cons x xs ih => exact insert_by_pairwise le htot htrans x (sort_by le xs) ih

theorem chars_le_total : ∀ a b : List Char, chars_le a b = true ∨ chars_le b a = true := by
  intro a
  induction a with
  | nil => intro b; left; rfl
  | cons x xs ih =>
    intro b
    cases b with
    | nil => right; rfl
    | cons y ys =>
      rcases lt_trichotomy x y with h | h | h
      · left; simp [chars_le, h]
      · subst h
        rcases ih ys with h2 | h2
        · left; simp [chars_le, h2]
        · right; simp [chars_le, h2]
      · right; simp [chars_le, h]

theorem chars_le_trans :
    ∀ a b c : List Char, chars_le a b = true → chars_le b c = true → chars_le a c = true := by
  intro a
  induction a with
  | nil => intro b c _ _; rfl
  | cons x xs ih =>
    intro b c hab hbc
    cases b with
    | nil => simp [chars_le] at hab
    | cons y ys =>
      cases c with
      | nil => simp [chars_le] at hbc
      | cons z zs =>
        rcases lt_trichotomy x y with h1 | h1 | h1
        · rcases lt_trichotomy y z with h2 | h2 | h2
          · simp [chars_le, h1.trans h2]
          · subst h2; simp [chars_le, h1]
          · simp [chars_le, asymm h2, h2] at hbc
        · subst h1
          simp only [chars_le, lt_irrefl, if_false] at hab
          rcases lt_trichotomy x z with h2 | h2 | h2
          · simp [chars_le, h2]
          · subst h2
            simp only [chars_le, lt_irrefl, if_false] at hbc ⊢
            exact ih ys zs hab hbc
          · simp [chars_le, asymm h2, h2] at hbc
        · simp [chars_le, asymm h1, h1] at hab

theorem chars_le_antisymm :
    ∀ a b : List Char, chars_le a b = true → chars_le b a = true → a = b := by
  intro a
  induction a with
  | nil =>
    intro b _ hba
    cases b with
    | nil => rfl
    | cons y ys => simp [chars_le] at hba
  | cons x xs ih =>
    intro b hab hba
    cases b with
    | nil => simp [chars_le] at hab
    | cons y ys =>
      rcases lt_trichotomy x y with h | h | h
      · simp [chars_le, asymm h, h] at hba
      · subst h
        simp only [chars_le, lt_irrefl, if_false] at hab hba
        rw [ih ys hab hba]
      · simp [chars_le, asymm h, h] at hab

theorem str_le_total (a b : String) : str_le a b = true ∨ str_le b a = true :=
  chars_le_total a.data b.data

theorem str_le_trans (a b c : String) :
    str_le a b = true → str_le b c = true → str_le a c = true :=
  chars_le_trans a.data b.data c.data

theorem str_le_antisymm (a b : String) :
    str_le a b = true → str_le b a = true → a = b := by
  intro h1 h2
  have hd : a.data = b.data := chars_le_antisymm a.data b.data h1 h2
  cases a with
  | mk da =>
    cases b with
    | mk db =>
      have hdd : da = db := hd
      rw [hdd]

theorem mem_dedup_sorted (l : List String) : ∀ a, a ∈ dedup_sorted l → a ∈ l := by
  induction l with
  | nil => simp [dedup_sorted]
  | cons x xs ih =>
    cases xs with
    | nil => simp [dedup_sorted]
    | cons y rest =>
      intro a ha
      rw [dedup_sorted] at ha
      by_cases h : x = y
      · simp only [h, if_true] at ha
        exact List.mem_cons_of_mem x (ih a ha)
      · simp only [h, if_false] at ha
        rcases List.mem_cons.mp ha with rfl | ha2
        · exact List.mem_cons_self a (y :: rest)
        · exact List.mem_cons_of_mem x (ih a ha2)

theorem dedup_sorted_sublist (l : List String) : (dedup_sorted l).Sublist l := by
  induction l with
  | nil => simp [dedup_sorted]
  | cons x xs ih =>
    cases xs with
    | nil => simp [dedup_sorted]
    | cons y rest =>
      rw [dedup_sorted]
      by_cases h : x = y
      · simp only [h, if_true]
        exact ih.cons _
      · simp only [h, if_false]
        exact ih.cons₂ _

theorem dedup_sorted_pairwise (l : List String)
    (hl : l.Pairwise (fun a b => str_le a b = true)) :
    (dedup_sorted l).Pairwise (fun a b => str_le a b = true) :=
  hl.sublist (dedup_sorted_sublist l)

theorem dedup_sorted_nodup (l : List String)
    (hl : l.Pairwise (fun a b => str_le a b = true)) : (dedup_sorted l).Nodup := by
  induction l with
  | nil => simp [dedup_sorted]
  | cons x xs ih =>
    cases xs with
    | nil => simp [dedup_sorted]
    | cons y rest =>
      rw [List.pairwise_cons] at hl
      obtain ⟨hx, htl⟩ := hl
      rw [dedup_sorted]
      by_cases h : x = y
      · simp only [h, if_true]
        exact ih htl
      · simp only [h, if_false]
        rw [List.nodup_cons]
        refine ⟨?_, ih htl⟩
        intro hmem
        have hxin : x ∈ y :: rest := mem_dedup_sorted (y :: rest) x hmem
        rcases List.mem_cons.mp hxin with rfl | hxr
        · exact h rfl
        · have h1 : str_le x y = true := hx y (List.mem_cons_self y rest)
          have h2 : str_le y x = true := (List.pairwise_cons.mp htl).1 x hxr
          have h3 : str_le x x = true := str_le_trans x y x h1 h2
          exact h (str_le_antisymm x y h1 h2)

/-- A well-formed entry list: sorted ascending and free of duplicates. -/
def entries_good (l : List String) : Prop :=
  l.Pairwise (fun a b => str_le a b = true) ∧ l.Nodup

theorem add_all_entries_good (c : Completions) (xs : List String) :
    entries_good (c.add_all xs).entries := by
  have hsort := sort_by_pairwise str_le str_le_total str_le_trans (c.entries ++ xs)
  exact ⟨dedup_sorted_pairwise _ hsort, dedup_sorted_nodup _ hsort⟩

theorem tab_lock_step_entries (r : List LVal) (acc : Completions) :
    (tab_lock_step r acc).entries = acc.entries := by
  unfold tab_lock_step
  cases h1 : r[1]? with
  | none => rfl
  | some v => cases v <;> rfl

theorem tab_entries_step_locked (r : List LVal) (acc : Completions) :
    (tab_entries_step r acc).locked = acc.locked := by
  unfold tab_entries_step
  cases h1 : r.head? with
  | none => rfl
  | some v =>
    cases v with
    | table conv => cases conv <;> rfl
    | bool b => rfl
    | other => rfl

theorem tab_step_entries_good (r : List LVal) (acc : Completions)
    (h : entries_good acc.entries) : entries_good (tab_step r acc).entries := by
  unfold tab_step
  cases he : r.isEmpty with
  | true => exact h
  | false =>
    simp only [Bool.false_eq_true, if_false]
    rw [tab_lock_step_entries]
    unfold tab_entries_step
    cases h1 : r.head? with
    | none => exact h
    | some v =>
      cases v with
      | table conv =>
        cases conv with
        | none => exact h
        | some comps => exact add_all_entries_good acc (sort_by str_le comps)
      | bool b => exact h
      | other => exact h

theorem tab_step_locked (r : List LVal) (acc : Completions) :
    (tab_step r acc).locked = (result_lock r).getD acc.locked := by
  unfold tab_step result_lock
  cases he : r.isEmpty with
  | true => rfl
  | false =>
    simp only [Bool.false_eq_true, if_false]
    unfold tab_lock_step
    cases h1 : r[1]? with
    | none => simp [tab_entries_step_locked]
    | some v =>
      cases v with
      | table conv => simp [tab_entries_step_locked]
      | bool b => simp [Completions.lock]
      | other => simp [tab_entries_step_locked]

theorem tab_complete_go_entries_good (cbs : List CompletionCallback) (input : String) :
    ∀ acc : Completions, entries_good acc.entries →
      ∀ c : Completions, tab_complete_go cbs input acc = Except.ok c →
        entries_good c.entries := by
  induction cbs with
  | nil =>
    intro acc hacc c h
    simp only [tab_complete_go, Except.ok.injEq] at h
    rw [← h]
    exact hacc
  | cons cb rest ih =>
    intro acc hacc c h
    cases hc : cb input with
    | error e => simp [tab_complete_go, hc] at h
    | ok r =>
      simp only [tab_complete_go, hc] at h
      exact ih (tab_step r acc) (tab_step_entries_good r acc hacc) c h

theorem tab_complete_go_locked (cbs : List CompletionCallback) (input : String) :
    ∀ (acc c : Completions), tab_complete_go cbs input acc = Except.ok c →
      c.locked = ((lock_list cbs input).getLast?).getD acc.locked := by
  induction cbs with
  | nil =>
    intro acc c h
    simp only [tab_complete_go, Except.ok.injEq] at h
    rw [← h]
    simp [lock_list]
  | cons cb rest ih =>
    intro acc c h
    cases hc : cb input with
    | error e => simp [tab_complete_go, hc] at h
    | ok r =>
      simp only [tab_complete_go, hc] at h
      have ihh := ih (tab_step r acc) c h
      rw [ihh, tab_step_locked]
      have hl : lock_list (cb :: rest) input =
          match result_lock r with
          | some b => b :: lock_list rest input
          | none => lock_list rest input := by
        unfold lock_list
        rw [List.filterMap_cons]
        simp only [hc]
        cases result_lock r <;> rfl
      cases hr : result_lock r with
      | none =>
        rw [hl]
        simp [hr]
      | some b =>
        rw [hl]
        simp only [hr, Option.getD_some]
        cases hLL : lock_list rest input with
        | nil => simp
        | cons z zs =>
          have hs : ((z :: zs).getLast?).isSome := by
            rw [List.getLast?_isSome]
            simp
          obtain ⟨w, hw⟩ := Option.isSome_iff_exists.mp hs
          rw [List.getLast?_cons_cons, hw]
          simp

/-- Claim C4: `tab_complete(input)` walks the completion callbacks in
insertion order; the resulting entry list is sorted and deduplicated; a
callback error makes the result the empty default; the `locked` flag equals
the lock of the last callback that returned a boolean lock (default false);
and a callback whose first returned value is not a string table contributes
no entries. -/
theorem tab_complete_spec (cbs : List CompletionCallback) (input : String) :
    entries_good (tab_complete cbs input).entries ∧
    (∀ e, tab_complete_go cbs input Completions.default = Except.error e →
      tab_complete cbs input = Completions.default) ∧
    (∀ c, tab_complete_go cbs input Completions.default = Except.ok c →
      c.locked = ((lock_list cbs input).getLast?).getD false) ∧
    (∀ (r : List LVal) (acc : Completions),
      (∀ v, r.head? = some v → is_string_table v = false) →
      (tab_step r acc).entries = acc.entries) := by
  refine ⟨?_, ?_, ?_, ?_⟩
  · unfold tab_complete
    cases hgo : tab_complete_go cbs input Completions.default with
    | ok c =>
      exact tab_complete_go_entries_good cbs input Completions.default
        (by simp [Completions.default, entries_good]) c hgo
    | error e => simp [Completions.default, entries_good]
  · intro e h
    simp [tab_complete, h]
  · intro c h
    have := tab_complete_go_locked cbs input Completions.default c h
    simpa [Completions.default] using this
  · intro r acc hr
    cases r with
    | nil => rfl
    | cons v tl =>
      have hv : is_string_table v = false := hr v rfl
      unfold tab_step
      simp only [List.isEmpty_cons, Bool.false_eq_true, if_false]
      rw [tab_lock_step_entries]
      unfold tab_entries_step
      cases v with
      | table conv =>
        cases conv with
        | none => rfl
        | some comps => simp [is_string_table] at hv
      | bool b => rfl
      | other => rfl

/-- Witness for C4 at a concrete input: one callback returning the table
`{"b", "a", "b"}` and the lock `true` yields the sorted deduplicated entries
`{"a", "b"}` with `locked = true`, matching the last returned lock. -/
theorem tab_complete_spec_witness :
    (Completions.mk ["a", "b"] true).locked =
      ((lock_list [fun _ => Except.ok [LVal.table (some ["b", "a", "b"]), LVal.bool true]]
          "bat").getLast?).getD false :=
  (tab_complete_spec
      [fun _ => Except.ok [LVal.table (some ["b", "a", "b"]), LVal.bool true]]
      "bat").2.2.1 (Completions.mk ["a", "b"] true) rfl

/-! ## Theorems for counted triggers -/

theorem counted_trigger_all_match : ∀ (cbs : List Bool) (N : Nat),
    counted_trigger_run N (cbs.map (fun ok => (true, ok))) =
      List.replicate (min cbs.length N) true ++ List.replicate (cbs.length - N) false := by
  intro cbs
  induction cbs with
  | nil => intro N; simp [counted_trigger_run]
  | cons b tl ih =>
    intro N
    cases N with
    | zero => simp [counted_trigger_run, ih 0, List.replicate_succ]
    | succ k =>
      simp [counted_trigger_run, ih k, List.replicate_succ, Nat.succ_min_succ,
        Nat.succ_sub_succ]

theorem counted_trigger_cb_irrelevant : ∀ (lines lines2 : List (Bool × Bool)) (N : Nat),
    lines.map Prod.fst = lines2.map Prod.fst →
    counted_trigger_run N lines = counted_trigger_run N lines2 := by
  intro lines
  induction lines with
  | nil =>
    intro lines2 N h
    cases lines2 with
    | nil => rfl
    | cons q tl2 => simp at h
  | cons p tl ih =>
    intro lines2 N h
    cases lines2 with
    | nil => simp at h
    | cons q tl2 =>
      obtain ⟨m1, c1⟩ := p
      obtain ⟨m2, c2⟩ := q
      simp only [List.map_cons, List.cons.injEq] at h
      obtain ⟨hm, htl⟩ := h
      cases hm
      cases N with
      | zero => simp [counted_trigger_run, ih tl2 0 htl]
      | succ k =>
        cases m1 with
        | true => simp [counted_trigger_run, ih tl2 k htl]
        | false => simp [counted_trigger_run, ih tl2 (Nat.succ k) htl]

/-- Claim C5: for a trigger with `count = N`, exactly the first N matching
lines end `matched = true` and every later matching line ends
`matched = false`; non-matching lines are untouched and do not consume the
count; the count decrements on every successful match regardless of the
callback's outcome; concretely, `count = 3` matches exactly the first three
of four matching lines. -/
theorem counted_trigger_spec (N : Nat) (cbs : List Bool)
    (lines lines2 : List (Bool × Bool)) :
    counted_trigger_run N (cbs.map (fun ok => (true, ok))) =
      List.replicate (min cbs.length N) true ++ List.replicate (cbs.length - N) false ∧
    (∀ (rest : List (Bool × Bool)) (k : Nat) (ok : Bool),
      counted_trigger_run k ((false, ok) :: rest) = false :: counted_trigger_run k rest) ∧
    (lines.map Prod.fst = lines2.map Prod.fst →
      counted_trigger_run N lines = counted_trigger_run N lines2) ∧
    counted_trigger_run 3 [(true, true), (true, false), (true, true), (true, true)] =
      [true, true, true, false] := by
  refine ⟨counted_trigger_all_match cbs N, ?_, counted_trigger_cb_irrelevant lines lines2 N, rfl⟩
  intro rest k ok
  cases k <;> rfl

/-- Witness for C5 at concrete inputs: two runs over lines with the same
match pattern but different callback outcomes agree. -/
theorem counted_trigger_spec_witness :
    counted_trigger_run 2 [(true, true), (false, false)] =
      counted_trigger_run 2 [(true, false), (false, true)] :=
  (counted_trigger_spec 2 [] [(true, true), (false, false)]
    [(true, false), (false, true)]).2.2.1 rfl

end Blightmud
